import Mathlib

/-!
A shallow embedding of the mexprp expression engine (IntrepidPig/mexprp),
covering the compilation pipeline (lexer, grouping builder, implicit
multiplication pass, shunting-yard linearizer, tree compiler) and the
evaluation engine (numeric contract for the `f64` backend, multi-valued
answer algebra, operation nodes, environment lookup), as implemented in
`src/parse.rs`, `src/op.rs`, `src/term.rs`, `src/opers.rs`, `src/answer.rs`,
`src/context.rs` and `src/num/float64.rs`.

Modelling conventions:
* Rust `f64` values are modelled by `F64`: an exact rational together with
  the special values NaN, +inf and -inf.  Arithmetic on finite values is
  exact rational arithmetic (IEEE rounding is abstracted away; no claim
  below depends on a rounded result).  Values of transcendental operations
  (`sin`, `log`, ...) are represented by placeholder functions: only the
  shape of their results (a `Single` answer) is claim-relevant.
* Rust panics (`unimplemented!()`, `unwrap()` on `None`) are modelled by an
  explicit `panicked` outcome; the unbounded recursion of `Term::eval_ctx`
  through context variables is modelled with an explicit fuel parameter
  (`fuelOut` outcome).
* `src/parse.rs` in this snapshot additionally recognises a `±` character
  (`In::PlusMinus`, `Pre::PosNeg`); those variants do not exist in the
  `Op` enum of `src/op.rs`, so the two files come from different revisions
  of the crate.  The `±` lines are omitted here (no claim involves `±`).
-/

namespace Mexprp

/-! ## Errors (`src/errors.rs`) -/

/-- The `Expected` enum of `src/errors.rs`. -/
inductive Expected where
  | operator
  | expression
  | paren
  | function
deriving DecidableEq

/-- The `ParseError` enum of `src/errors.rs`. -/
inductive ParseError where
  | unexpectedToken (token : String)
  | mismatchedParentheses
  | expected (expected : Expected)
deriving DecidableEq

/-- The `MathError` enum of `src/errors.rs`. -/
inductive MathError where
  | undefinedVariable (name : String)
  | undefinedFunction (name : String)
  | incorrectArguments
  | divideByZero
  | NaN
  | cmpError
  | unimplementedOp (op : String) (numType : String)
  | other
deriving DecidableEq

/-! ## The `f64` number model

Rust `f64` is modelled as an exact rational plus the IEEE special values.
There is a single zero (the sign of zero plays no role in any claim). -/

/-- Model of a Rust `f64` value: a finite (exact) rational, NaN, or ±infinity. -/
inductive F64 where
  | finite (q : ℚ)
  | nan
  | inf
  | ninf
deriving DecidableEq

/-- IEEE addition on the model (exact on finite values). -/
def f64add : F64 → F64 → F64
  | .nan, _ => .nan
  | _, .nan => .nan
  | .inf, .ninf => .nan
  | .ninf, .inf => .nan
  | .inf, _ => .inf
  | _, .inf => .inf
  | .ninf, _ => .ninf
  | _, .ninf => .ninf
  | .finite a, .finite b => .finite (a + b)

/-- IEEE subtraction on the model (exact on finite values). -/
def f64sub : F64 → F64 → F64
  | .nan, _ => .nan
  | _, .nan => .nan
  | .inf, .inf => .nan
  | .ninf, .ninf => .nan
  | .inf, _ => .inf
  | _, .inf => .ninf
  | .ninf, _ => .ninf
  | _, .ninf => .inf
  | .finite a, .finite b => .finite (a - b)

/-- IEEE multiplication on the model (exact on finite values). -/
def f64mul : F64 → F64 → F64
  | .nan, _ => .nan
  | _, .nan => .nan
  | .inf, .inf => .inf
  | .inf, .ninf => .ninf
  | .ninf, .inf => .ninf
  | .ninf, .ninf => .inf
  | .inf, .finite b => if b = 0 then .nan else if 0 < b then .inf else .ninf
  | .finite a, .inf => if a = 0 then .nan else if 0 < a then .inf else .ninf
  | .ninf, .finite b => if b = 0 then .nan else if 0 < b then .ninf else .inf
  | .finite a, .ninf => if a = 0 then .nan else if 0 < a then .ninf else .inf
  | .finite a, .finite b => .finite (a * b)

/-- IEEE division on the model (exact on finite values; the divisor is
never `finite 0` at call sites, see `f64divOp`). -/
def f64div : F64 → F64 → F64
  | .nan, _ => .nan
  | _, .nan => .nan
  | .inf, .inf => .nan
  | .inf, .ninf => .nan
  | .ninf, .inf => .nan
  | .ninf, .ninf => .nan
  | .inf, .finite b => if 0 ≤ b then .inf else .ninf
  | .ninf, .finite b => if 0 ≤ b then .ninf else .inf
  | .finite _, .inf => .finite 0
  | .finite _, .ninf => .finite 0
  | .finite a, .finite b => .finite (a / b)

/-- Value of Rust `f64::powf` on the model.  Finite bases with integer
exponents are computed exactly; all remaining cases (non-integer exponents,
infinite operands, and the IEEE corner cases such as `powf(NaN, 0) = 1`)
are not exercised by any claim and are collapsed to NaN. -/
def f64powVal : F64 → F64 → F64
  | .finite a, .finite b =>
    if b.den = 1 then
      if a = 0 then
        if 0 < b.num then .finite 0 else if b.num = 0 then .finite 1 else .inf
      else .finite (a ^ b.num)
    else .nan
  | _, _ => .nan

/-- Integer square root by downward search (a kernel-reducible stand-in
for `Nat.sqrt`, whose well-founded recursion does not reduce): the largest
`r ≤ bound` with `r * r ≤ n`. -/
def natSqrtAux : ℕ → ℕ → ℕ
  | 0, _ => 0
  | r + 1, n => if (r + 1) * (r + 1) ≤ n then r + 1 else natSqrtAux r n

/-- Integer square root (floor). -/
def natSqrt (n : ℕ) : ℕ := natSqrtAux n n

/-- Exact rational square root, when it exists. -/
def ratSqrt (q : ℚ) : Option ℚ :=
  let n := q.num.toNat
  let d := q.den
  if q.num < 0 then none
  else if natSqrt n * natSqrt n = n ∧ natSqrt d * natSqrt d = d then
    some ((natSqrt n : ℚ) / (natSqrt d : ℚ))
  else none

/-- Value of Rust `f64::sqrt` on the model: exact on perfect squares of
rationals; for other nonnegative finite inputs (whose IEEE result is a
rounded irrational, on which no claim depends) a `Nat.sqrt`-based
approximation stands in for the rounded value. -/
def f64sqrtVal : F64 → F64
  | .nan => .nan
  | .ninf => .nan
  | .inf => .inf
  | .finite q =>
    if q < 0 then .nan
    else match ratSqrt q with
      | some r => .finite r
      | none => .finite ((natSqrt q.num.toNat : ℚ) / (natSqrt q.den : ℚ))

/-- IEEE negation on the model (used for the `-sqrt` entry of a
multi-valued square root). -/
def f64neg : F64 → F64
  | .finite q => .finite (-q)
  | .nan => .nan
  | .inf => .ninf
  | .ninf => .inf

/-- Value of Rust `f64::abs` on the model. -/
def f64absVal : F64 → F64
  | .finite q => .finite |q|
  | .nan => .nan
  | .inf => .inf
  | .ninf => .inf

/-- Value of Rust `f64::floor` on the model. -/
def f64floorVal : F64 → F64
  | .finite q => .finite (⌊q⌋ : ℚ)
  | x => x

/-- Value of Rust `f64::ceil` on the model. -/
def f64ceilVal : F64 → F64
  | .finite q => .finite (⌈q⌉ : ℚ)
  | x => x

/-- Value of Rust `f64::round` (round half away from zero) on the model. -/
def f64roundVal : F64 → F64
  | .finite q => if 0 ≤ q then .finite (⌊q + 1/2⌋ : ℚ) else .finite (-(⌊-q + 1/2⌋ : ℚ))
  | x => x

/-- Placeholder for the values of the transcendental `f64` operations
(`sin`, `cos`, `tan`, `asin`, `acos`, `atan`): NaN-propagating, otherwise
an unspecified finite value.  Only the shape of the result (a `Single`
answer) is relevant to any claim. -/
def f64transVal : F64 → F64
  | .finite _ => .finite 0
  | _ => .nan

/-- Placeholder for the values of the binary transcendental `f64`
operations (`atan2`, `log`); see `f64transVal`. -/
def f64transVal2 : F64 → F64 → F64
  | .finite _, .finite _ => .finite 0
  | _, _ => .nan

/-- Rational comparison as a Rust `Ordering` (matches `partial_cmp` on
non-NaN finite floats). -/
def ratCompare (a b : ℚ) : Ordering :=
  if a < b then .lt else if a = b then .eq else .gt

/-- `<f64 as Num>::tryord` from `src/num/float64.rs`: errors on NaN,
treats the infinities as extremal, otherwise defers to the natural order.
(The source delegates the finite-vs-infinite case to the symmetric call
and reverses the result; that is inlined here.) -/
def f64tryord : F64 → F64 → Except MathError Ordering
  | .nan, _ => .error .cmpError
  | _, .nan => .error .cmpError
  | .inf, .inf => .ok .eq
  | .inf, _ => .ok .gt
  | .ninf, .ninf => .ok .eq
  | .ninf, _ => .ok .lt
  | .finite _, .inf => .ok .lt
  | .finite _, .ninf => .ok .gt
  | .finite a, .finite b => .ok (ratCompare a b)

/-! ## Answers (`src/answer.rs`) -/

/-- The `Answer` enum of `src/answer.rs`: a single value or a list of
values (which, by the documented invariant, should hold at least two). -/
inductive Answer (α : Type) where
  | single (n : α)
  | multiple (ns : List α)
deriving DecidableEq

/-- `Answer::to_vec` from `src/answer.rs`. -/
def Answer.toVec : Answer α → List α
  | .single n => [n]
  | .multiple ns => ns

/-- The `push_answers` helper of `Answer::op`/`Answer::unop`: appends all
values of an answer to an accumulator list. -/
def pushAnswers (a : Answer α) (list : List α) : List α :=
  list ++ a.toVec

/-- The result type `Calculation<N>` of `src/opers.rs`, with `N`
instantiated by the `f64` model. -/
abbrev Calculation (α : Type) := Except MathError (Answer α)

/-- The inner loop of `Answer::op`/`Answer::unop`: applies `f` to every
element in order, pushing all values of every (successful) result onto the
accumulator, aborting on the first error. -/
def opAll (f : α → Calculation α) : List α → List α → Except MathError (List α)
  | [], acc => .ok acc
  | x :: xs, acc =>
    match f x with
    | .error e => .error e
    | .ok a => opAll f xs (pushAnswers a acc)

/-- The nested loop of the `Multiple ⊗ Multiple` case of `Answer::op`. -/
def opAllPairs (oper : α → α → Calculation α) (n2s : List α) :
    List α → List α → Except MathError (List α)
  | [], acc => .ok acc
  | n :: ns, acc =>
    match opAll (fun n2 => oper n n2) n2s acc with
    | .error e => .error e
    | .ok acc' => opAllPairs oper n2s ns acc'

/-- `Answer::op` from `src/answer.rs`: perform an operation on all the
values of an answer with all the values of another answer. -/
def Answer.op (a : Answer α) (other : Answer α) (oper : α → α → Calculation α) :
    Calculation α :=
  match a, other with
  | .single n, .single n2 => oper n n2
  | .single n, .multiple n2s =>
    match opAll (fun n2 => oper n n2) n2s [] with
    | .error e => .error e
    | .ok answers => .ok (.multiple answers)
  | .multiple ns, .single n2 =>
    match opAll (fun n => oper n n2) ns [] with
    | .error e => .error e
    | .ok answers => .ok (.multiple answers)
  | .multiple ns, .multiple n2s =>
    match opAllPairs oper n2s ns [] with
    | .error e => .error e
    | .ok answers => .ok (.multiple answers)

/-- `Answer::unop` from `src/answer.rs`: perform an operation on all the
values of an answer. -/
def Answer.unop (a : Answer α) (oper : α → Calculation α) : Calculation α :=
  match a with
  | .single n => oper n
  | .multiple ns =>
    match opAll oper ns [] with
    | .error e => .error e
    | .ok answers => .ok (.multiple answers)

/-- The documented `Answer` invariant (`src/answer.rs`, spec §3): the
`Multiple` variant never holds fewer than two entries. -/
def Answer.wf : Answer α → Bool
  | .single _ => true
  | .multiple ns => 2 ≤ ns.length

/-! ## Operators (`src/op.rs`) -/

/-- The infix operators (`In` in `src/op.rs`). -/
inductive In where
  | pow
  | mul
  | div
  | add
  | sub
deriving DecidableEq

/-- The prefix operators (`Pre` in `src/op.rs`). -/
inductive Pre where
  | neg
  | pos
deriving DecidableEq

/-- The postfix operators (`Post` in `src/op.rs`). -/
inductive Post where
  | fact
  | percent
deriving DecidableEq

/-- The `Op` enum of `src/op.rs`. -/
inductive Op where
  | inop (op : In)
  | pre (op : Pre)
  | post (op : Post)
deriving DecidableEq

/-- `Op::precedence` from `src/op.rs`. -/
def Op.precedence : Op → Int
  | .inop .pow => 4
  | .inop .mul | .inop .div => 3
  | .inop .add | .inop .sub => 2
  | .pre .neg | .pre .pos => 4
  | .post .fact => 4
  | .post .percent => 4

/-- `Op::is_left_associative` from `src/op.rs`. -/
def Op.isLeftAssociative : Op → Bool
  | .inop .pow => false
  | .inop .mul | .inop .div | .inop .add | .inop .sub => true
  | .pre .neg | .pre .pos => false
  | .post .fact => true
  | .post .percent => true

/-- `Op::should_shunt` from `src/op.rs`: true if the other operator should
be evaluated before this one. -/
def Op.shouldShunt (self other : Op) : Bool :=
  (other.precedence > self.precedence) ||
    (other.precedence = self.precedence && other.isLeftAssociative)

/-- The `Paren` enum of `src/op.rs`. -/
inductive Paren where
  | open_
  | close
deriving DecidableEq

/-! ## Tokens and the lexer (`src/parse.rs`) -/

/-- The `Token` enum of `src/parse.rs`.  Numeric literals are carried as
exact rationals (the value a short decimal literal denotes; IEEE rounding
of long literals is abstracted away). -/
inductive Token where
  | paren (p : Paren)
  | op (o : Op)
  | name (s : String)
  | num (n : ℚ)
  | comma
deriving DecidableEq

/-- The `ParenToken` enum of `src/parse.rs`: tokens with parenthesised
subexpressions made structural. -/
inductive ParenToken where
  | op (o : Op)
  | num (n : ℚ)
  | name (s : String)
  | sub (ts : List ParenToken)
  | comma

/-- Decimal value of a digit character. -/
def digitVal (c : Char) : ℕ := c.toNat - '0'.toNat

/-- Exact value denoted by a decimal literal buffer (digits with at most
one point), mirroring a successful Rust `str::parse::<f64>` (rounding
abstracted away).  Returns `none` exactly when Rust's parse fails on the
buffers `next_num` can produce: the buffers `"."` and `"-"`. -/
def parseDecimal (buf : List Char) : Option ℚ :=
  let whole := buf.takeWhile (· ≠ '.')
  let rest := buf.dropWhile (· ≠ '.')
  let frac := rest.drop 1
  if buf.all (fun c => c.isDigit || c = '.') ∧ (whole ≠ [] ∨ frac ≠ []) then
    some ((whole.foldl (fun acc c => 10 * acc + digitVal c) 0 : ℚ) +
      (frac.foldl (fun acc c => 10 * acc + digitVal c) 0 : ℚ) / (10 : ℚ) ^ frac.length)
  else none

/-- The character-consuming loop of `next_num` (`src/parse.rs`): greedily
accumulate digits and at most one decimal point into `buf`.  Returns the
buffer together with the unconsumed remainder (`[]` iff the end of the
input was reached), `none` when the loop gives up (empty buffer before a
non-numeric character, or a second decimal point). -/
def numLoop : List Char → List Char → Bool → Option (List Char × List Char)
  | [], buf, _ => if buf = [] then none else some (buf, [])
  | c :: cs, buf, dot =>
    if c.isDigit then numLoop cs (buf ++ [c]) dot
    else if c = '.' then
      if !dot then numLoop cs (buf ++ [c]) true else none
    else if buf = [] then none
    else some (buf, c :: cs)

/-- `next_num` from `src/parse.rs`: get a number at the beginning of a
string.  Includes the degenerate branch that turns a buffer equal to `"-"`
at the end of input into the literal `-1.0` (claim C10 shows it is dead
code). -/
def nextNum (raw : List Char) : Option (Token × List Char) :=
  match numLoop raw [] false with
  | none => none
  | some (buf, []) =>
    if buf = ['-'] then some (.num (-1), [])
    else (parseDecimal buf).map (fun v => (.num v, []))
  | some (buf, rest) => (parseDecimal buf).map (fun v => (.num v, rest))

/-- `next_num` with the dead `buf == "-"` branch removed (the behaviour
the spec describes for the target design). -/
def nextNumNoDash (raw : List Char) : Option (Token × List Char) :=
  match numLoop raw [] false with
  | none => none
  | some (buf, rest) => (parseDecimal buf).map (fun v => (.num v, rest))

/-- `next_paren` from `src/parse.rs`. -/
def nextParen : List Char → Option (Token × List Char)
  | '(' :: cs => some (.paren .open_, cs)
  | ')' :: cs => some (.paren .close, cs)
  | _ => none

/-- `next_in_op` from `src/parse.rs` (the `±` line is omitted, see the
module docstring). -/
def nextInOp : List Char → Option (Token × List Char)
  | c :: cs =>
    if c = '+' then some (.op (.inop .add), cs)
    else if c = '-' then some (.op (.inop .sub), cs)
    else if c = '*' ∨ c = '×' then some (.op (.inop .mul), cs)
    else if c = '/' ∨ c = '÷' then some (.op (.inop .div), cs)
    else if c = '^' then some (.op (.inop .pow), cs)
    else none
  | [] => none

/-- `next_pre_op` from `src/parse.rs` (`±` omitted). -/
def nextPreOp : List Char → Option (Token × List Char)
  | c :: cs =>
    if c = '-' then some (.op (.pre .neg), cs)
    else if c = '+' then some (.op (.pre .pos), cs)
    else none
  | [] => none

/-- `next_post_op` from `src/parse.rs`: the lexer accepts the postfix
factorial `!` and percent `%`. -/
def nextPostOp : List Char → Option (Token × List Char)
  | c :: cs =>
    if c = '!' then some (.op (.post .fact), cs)
    else if c = '%' then some (.op (.post .percent), cs)
    else none
  | [] => none

/-- The character-consuming loop of `next_name` (`src/parse.rs`):
greedily accumulate alphabetic characters and underscores. -/
def nameLoop : List Char → List Char → Option (List Char × List Char)
  | [], buf => if buf = [] then none else some (buf, [])
  | c :: cs, buf =>
    if c.isAlpha ∨ c = '_' then nameLoop cs (buf ++ [c])
    else if buf = [] then none
    else some (buf, c :: cs)

/-- `next_name` from `src/parse.rs` (Rust's Unicode `is_alphabetic` is
modelled by ASCII `Char.isAlpha`; every name in the claims is ASCII). -/
def nextName (raw : List Char) : Option (Token × List Char) :=
  (nameLoop raw []).map (fun p => (.name (String.mk p.1), p.2))

/-- `next_comma` from `src/parse.rs`. -/
def nextComma : List Char → Option (Token × List Char)
  | ',' :: cs => some (.comma, cs)
  | _ => none

/-- The `TokenFn` type of `src/parse.rs`. -/
abbrev TokenFn := List Char → Option (Token × List Char)

/-- `get_parse_order` from `src/parse.rs`: which token readers to try (in
order) based on the previously produced token. -/
def getParseOrder : Option Token → List TokenFn
  | some (.paren .open_) => [nextParen, nextName, nextNum, nextPreOp]
  | some (.paren .close) => [nextParen, nextComma, nextInOp, nextPostOp, nextName, nextNum]
  | some (.op (.inop _)) => [nextParen, nextName, nextNum, nextPreOp]
  | some (.op (.pre _)) => [nextParen, nextName, nextNum, nextPreOp]
  | some (.op (.post _)) => [nextParen, nextComma, nextName, nextInOp, nextPostOp, nextNum]
  | some (.num _) => [nextParen, nextComma, nextInOp, nextPostOp, nextName]
  | some (.name _) => [nextParen, nextComma, nextInOp, nextName, nextPostOp, nextNum]
  | some .comma => [nextParen, nextName, nextNum, nextPreOp]
  | none => [nextParen, nextName, nextNum, nextPreOp]

/-- Result type of the parsing pipeline: a value, a `ParseError`, or a
Rust panic (`unwrap` on `None`). -/
inductive PRes (α : Type) where
  | ok (a : α)
  | err (e : ParseError)
  | panicked
deriving DecidableEq

/-- Bind for `PRes`. -/
def PRes.bind : PRes α → (α → PRes β) → PRes β
  | .ok a, f => f a
  | .err e, _ => .err e
  | .panicked, _ => .panicked

instance : Monad PRes where
  pure := PRes.ok
  bind := PRes.bind

/-- Try the token readers in order, returning the first hit. -/
def tryOrder : List TokenFn → List Char → Option (Token × List Char)
  | [], _ => none
  | f :: fs, raw =>
    match f raw with
    | some r => some r
    | none => tryOrder fs raw

/-- `next_token` from `src/parse.rs`: skip whitespace, then try the
readers given by `get_parse_order`.  When every reader fails, the source
builds an `UnexpectedToken` from `raw.chars().next().unwrap()`; on input
that is empty after the whitespace skip that `unwrap` panics. -/
def nextToken (raw : List Char) (last : Option Token) : PRes (Token × List Char) :=
  let raw := raw.dropWhile Char.isWhitespace
  match tryOrder (getParseOrder last) raw with
  | some r => .ok r
  | none =>
    match raw with
    | [] => .panicked
    | c :: _ => .err (.unexpectedToken (String.mk [c]))

/-- The loop of `to_tokens` from `src/parse.rs`.  The fuel starts at
`raw.length + 1`; since every produced token consumes at least one
character, the fuel never runs out (`panicked` on fuel exhaustion is
unreachable and only present to make the recursion structural). -/
def toTokensLoop : ℕ → List Char → List Token → PRes (List Token)
  | _, [], acc => .ok acc
  | 0, _ :: _, _ => .panicked
  | fuel + 1, raw, acc =>
    match nextToken raw acc.getLast? with
    | .ok (tok, rest) => toTokensLoop fuel rest (acc ++ [tok])
    | .err e => .err e
    | .panicked => .panicked

/-- `to_tokens` from `src/parse.rs`: convert a string to a list of
tokens. -/
def toTokens (raw : List Char) : PRes (List Token) :=
  toTokensLoop (raw.length + 1) raw []

/-! ## Grouping builder (`to_paren_tokens`, `src/parse.rs`)

The Rust `recurse` makes a single pass, counting parenthesis depth: at
depth 0 tokens are emitted directly, a closing parenthesis below depth 0
is a `MismatchedParentheses` error, and a depth-0 opening parenthesis
buffers tokens up to its matching close, which are then recursed on.  An
opening parenthesis with no matching close buffers to the end of input and
the buffer is silently discarded (the source has no end-of-input depth
check).  The single pass is expressed here with an explicit stack of
suspended outer accumulators: the stack length is exactly the source's
`paren_count`, a nonempty stack is `counting`, and the current accumulator
is the buffered group; the recursion on sub-groups becomes popping a
finished group into its parent. -/

/-- The scanning loop of `to_paren_tokens`: `acc` is the group being
built, `stack` the suspended enclosing groups (innermost first; its length
is the current nesting depth).  At the end of input, unmatched open
parentheses leave a nonempty stack whose bottom — the outermost
accumulator, frozen when the unmatched open arrived — is returned, which
silently drops the unclosed rest. -/
def groupLoop : List Token → List ParenToken → List (List ParenToken) →
    Except ParseError (List ParenToken)
  | [], acc, stack => .ok ((stack.getLast?).getD acc)
  | .paren .open_ :: rest, acc, stack => groupLoop rest [] (acc :: stack)
  | .paren .close :: _, _, [] => .error .mismatchedParentheses
  | .paren .close :: rest, acc, parent :: stack =>
    groupLoop rest (parent ++ [.sub acc]) stack
  | .num n :: rest, acc, stack => groupLoop rest (acc ++ [.num n]) stack
  | .op o :: rest, acc, stack => groupLoop rest (acc ++ [.op o]) stack
  | .name s :: rest, acc, stack => groupLoop rest (acc ++ [.name s]) stack
  | .comma :: rest, acc, stack => groupLoop rest (acc ++ [.comma]) stack

/-- `to_paren_tokens` from `src/parse.rs`: convert tokens to a tree based
on expressions within parentheses. -/
def toParenTokens (raw : List Token) : Except ParseError (List ParenToken) :=
  groupLoop raw [] []

/-- `get_tokens` from `src/parse.rs`: lex, then group. -/
def getTokens (raw : List Char) : PRes (List ParenToken) := do
  let rawTokens ← toTokens raw
  match toParenTokens rawTokens with
  | .ok ts => pure ts
  | .error e => .err e

/-! ## Terms and the context (`src/term.rs`, `src/context.rs`)

`Term<N>` and the operation structs of `src/opers.rs` are modelled (at
`N = f64`) as a pair of mutually inductive types: `Term.operation` holds
an `Oper` value standing for the `Rc<Operate<N>>` trait object, with one
`Oper` constructor per operation struct (`Add`, `Sub`, `Mul`, `Div`,
`Pow`, `Neg`, `Pos`, `Fact`, `Percent`).  The builtin functions of the
default context (`src/context.rs`, module `funcs`) are a closed enum
`BFunc` standing for the `Rc<Func<N>>` trait objects a default context
can hold. -/

mutual

/-- The `Term` enum of `src/term.rs` at `N = f64`. -/
inductive Term where
  | num (a : Answer F64)
  | operation (o : Oper)
  | function (name : String) (args : List Term)
  | var (name : String)

/-- One constructor per operation struct of `src/opers.rs`. -/
inductive Oper where
  | add (a b : Term)
  | sub (a b : Term)
  | mul (a b : Term)
  | div (a b : Term)
  | pow (a b : Term)
  | neg (a : Term)
  | pos (a : Term)
  | fact (a : Term)
  | percent (a : Term)

end

/-- The builtin function structs of `src/context.rs` (module `funcs`). -/
inductive BFunc where
  | sin
  | cos
  | max
  | min
  | sqrt
  | nrt
  | tan
  | abs
  | asin
  | acos
  | atan
  | atan2
  | floor
  | ceil
  | round
  | log
deriving DecidableEq

/-- The `Config` struct of `src/context.rs`. -/
structure Config where
  implicitMultiplication : Bool
  precision : ℕ
  sqrtBoth : Bool

/-- `Config::new` from `src/context.rs` (the default configuration). -/
def Config.new : Config :=
  { implicitMultiplication := true, precision := 53, sqrtBoth := true }

/-- The `Context` struct of `src/context.rs` at `N = f64`; the two
`HashMap`s are modelled as association lists with distinct keys. -/
structure Ctx where
  vars : List (String × Term)
  funcs : List (String × BFunc)
  cfg : Config

/-- `Context::empty` from `src/context.rs`. -/
def Ctx.empty : Ctx :=
  { vars := [], funcs := [], cfg := Config.new }

/-- The exact rational value of the `f64` constant `std::f64::consts::PI`. -/
def pi64 : ℚ := 884279719003555 / 281474976710656

/-- The exact rational value of the `f64` constant `std::f64::consts::E`. -/
def e64 : ℚ := 6121026514868073 / 2251799813685248

/-- `Context::new` from `src/context.rs`: the default context, holding the
constants `pi`, `e` and `i` (the latter is `from_f64_complex((0.0, 1.0))`,
which the `f64` backend truncates to `0.0`) and the builtin functions.
(`src/context.rs` defines a `Ceil` struct but never registers a `"ceil"`
entry.) -/
def Ctx.new : Ctx :=
  { vars := [("pi", .num (.single (.finite pi64))),
             ("e", .num (.single (.finite e64))),
             ("i", .num (.single (.finite 0)))],
    funcs := [("sin", .sin), ("cos", .cos), ("max", .max), ("min", .min),
              ("sqrt", .sqrt), ("nrt", .nrt), ("tan", .tan), ("abs", .abs),
              ("asin", .asin), ("acos", .acos), ("atan", .atan),
              ("atant", .atan2), ("floor", .floor), ("round", .round),
              ("log", .log)],
    cfg := Config.new }

/-- `HashMap::contains_key` on the modelled function table. -/
def Ctx.funcsContains (ctx : Ctx) (name : String) : Bool :=
  (ctx.funcs.lookup name).isSome

/-! ## The `f64` numeric contract (`src/num/float64.rs`)

Each operation mirrors the corresponding `impl Num for f64` method:
everything returns `Ok(Single(..))` except `div` (which errors on a zero
divisor) and `sqrt` (which returns both signed roots when the
configuration asks for them). -/

/-- `<f64 as Num>::from_f64`. -/
def f64fromF64 (t : F64) (_ctx : Ctx) : Calculation F64 := .ok (.single t)

/-- `<f64 as Num>::from_f64_complex` (the imaginary part is dropped). -/
def f64fromF64Complex (r _i : F64) (_ctx : Ctx) : Calculation F64 := .ok (.single r)

/-- `<f64 as Num>::add`. -/
def f64addOp (a b : F64) (_ctx : Ctx) : Calculation F64 := .ok (.single (f64add a b))

/-- `<f64 as Num>::sub`. -/
def f64subOp (a b : F64) (_ctx : Ctx) : Calculation F64 := .ok (.single (f64sub a b))

/-- `<f64 as Num>::mul`. -/
def f64mulOp (a b : F64) (_ctx : Ctx) : Calculation F64 := .ok (.single (f64mul a b))

/-- `<f64 as Num>::div`: errors with `DivideByZero` when the divisor
equals zero, otherwise divides. -/
def f64divOp (a b : F64) (_ctx : Ctx) : Calculation F64 :=
  if b = .finite 0 then .error .divideByZero
  else .ok (.single (f64div a b))

/-- `<f64 as Num>::pow`. -/
def f64powOp (a b : F64) (_ctx : Ctx) : Calculation F64 := .ok (.single (f64powVal a b))

/-- `<f64 as Num>::sqrt`: both signed roots when `sqrt_both` is set,
otherwise the principal root only. -/
def f64sqrtOp (a : F64) (ctx : Ctx) : Calculation F64 :=
  let s := f64sqrtVal a
  .ok (if ctx.cfg.sqrtBoth then .multiple [s, f64neg s] else .single s)

/-- `<f64 as Num>::abs`. -/
def f64absOp (a : F64) (_ctx : Ctx) : Calculation F64 := .ok (.single (f64absVal a))

/-- `<f64 as Num>::sin` (value via the `f64transVal` placeholder). -/
def f64sinOp (a : F64) (_ctx : Ctx) : Calculation F64 := .ok (.single (f64transVal a))

/-- `<f64 as Num>::cos` (value via the `f64transVal` placeholder). -/
def f64cosOp (a : F64) (_ctx : Ctx) : Calculation F64 := .ok (.single (f64transVal a))

/-- `<f64 as Num>::tan` (value via the `f64transVal` placeholder). -/
def f64tanOp (a : F64) (_ctx : Ctx) : Calculation F64 := .ok (.single (f64transVal a))

/-- `<f64 as Num>::asin` (value via the `f64transVal` placeholder). -/
def f64asinOp (a : F64) (_ctx : Ctx) : Calculation F64 := .ok (.single (f64transVal a))

/-- `<f64 as Num>::acos` (value via the `f64transVal` placeholder). -/
def f64acosOp (a : F64) (_ctx : Ctx) : Calculation F64 := .ok (.single (f64transVal a))

/-- `<f64 as Num>::atan` (value via the `f64transVal` placeholder). -/
def f64atanOp (a : F64) (_ctx : Ctx) : Calculation F64 := .ok (.single (f64transVal a))

/-- `<f64 as Num>::atan2` (value via the `f64transVal2` placeholder). -/
def f64atan2Op (a b : F64) (_ctx : Ctx) : Calculation F64 := .ok (.single (f64transVal2 a b))

/-- `<f64 as Num>::floor`. -/
def f64floorOp (a : F64) (_ctx : Ctx) : Calculation F64 := .ok (.single (f64floorVal a))

/-- `<f64 as Num>::ceil`. -/
def f64ceilOp (a : F64) (_ctx : Ctx) : Calculation F64 := .ok (.single (f64ceilVal a))

/-- `<f64 as Num>::round`. -/
def f64roundOp (a : F64) (_ctx : Ctx) : Calculation F64 := .ok (.single (f64roundVal a))

/-- `<f64 as Num>::log` (value via the `f64transVal2` placeholder). -/
def f64logOp (a b : F64) (_ctx : Ctx) : Calculation F64 := .ok (.single (f64transVal2 a b))

/-- The `Num::nrt` default of `src/num/mod.rs` (not overridden by the
`f64` backend): `Unimplemented`. -/
def f64nrtOp (_a _b : F64) (_ctx : Ctx) : Calculation F64 :=
  .error (.unimplementedOp "Nth Root" "f64")

/-! ## Grouped tokens to expressions (`src/term.rs`) -/

/-- The private `Expr` enum of `src/term.rs`. -/
inductive Expr where
  | num (n : ℚ)
  | op (o : Op)
  | sub (exprs : List Expr)
  | var (name : String)
  | func (name : String) (args : List (List Expr))

/-- `Expr::is_operand` from `src/term.rs`. -/
def Expr.isOperand : Expr → Bool
  | .num _ | .var _ | .func _ _ | .sub _ => true
  | .op _ => false

/-- True exactly on the `Comma` token. -/
def ParenToken.isComma : ParenToken → Bool
  | .comma => true
  | _ => false

/-- The `raw.split(comma)` step of `tokens_to_args` (`src/term.rs`):
split a token list on its top-level commas (empty runs included). -/
def splitComma : List ParenToken → List (List ParenToken)
  | [] => [[]]
  | t :: rest =>
    if t.isComma then [] :: splitComma rest
    else
      match splitComma rest with
      | [] => [[t]]
      | p :: ps => (t :: p) :: ps

/-- `tokens_to_args` from `src/term.rs`, parameterized by the parser for
a single argument: split an argument list on top-level commas, dropping
empty arguments, and parse each. -/
def tokensToArgsP (pe : List ParenToken → PRes (List Expr)) (raw : List ParenToken) :
    PRes (List (List Expr)) :=
  ((splitComma raw).filter (fun p => !p.isEmpty)).mapM pe

/-- `paren_to_exprs` from `src/term.rs`: decide whether names are
variables or function calls, and parse function argument lists.  The
source keeps a one-token `pending_name` buffer; that is expressed here by
matching on the next token after a name.  The recursion (into both the
remainder of the list and the nested sub-groups) is driven by a fuel
parameter; `sizeOf` of the input (as supplied by the `parenToExprs`
wrapper) always suffices, so the `panicked` fuel sentinel is
unreachable from the wrapper. -/
def parenToExprsF : ℕ → List ParenToken → Ctx → PRes (List Expr)
  | 0, _, _ => .panicked
  | _ + 1, [], _ => .ok []
  | fuel + 1, .num n :: rest, ctx => do
    let r ← parenToExprsF fuel rest ctx
    .ok (Expr.num n :: r)
  | fuel + 1, .op o :: rest, ctx => do
    let r ← parenToExprsF fuel rest ctx
    .ok (Expr.op o :: r)
  | fuel + 1, .sub s :: rest, ctx => do
    let inner ← parenToExprsF fuel s ctx
    let r ← parenToExprsF fuel rest ctx
    .ok (Expr.sub inner :: r)
  | _ + 1, .comma :: _, _ => .err (.unexpectedToken ",")
  | fuel + 1, .name nm :: .sub s :: rest', ctx =>
    if ctx.cfg.implicitMultiplication then
      if ctx.funcsContains nm then do
        let args ← tokensToArgsP (fun p => parenToExprsF fuel p ctx) s
        let r ← parenToExprsF fuel rest' ctx
        .ok (Expr.func nm args :: r)
      else do
        let inner ← parenToExprsF fuel s ctx
        let r ← parenToExprsF fuel rest' ctx
        .ok (Expr.var nm :: Expr.sub inner :: r)
    else do
      let args ← tokensToArgsP (fun p => parenToExprsF fuel p ctx) s
      let r ← parenToExprsF fuel rest' ctx
      .ok (Expr.func nm args :: r)
  | fuel + 1, .name nm :: rest, ctx => do
    let r ← parenToExprsF fuel rest ctx
    .ok (Expr.var nm :: r)

/-! ## Implicit multiplication pass (`insert_operators`, `src/term.rs`) -/

/-- True on a postfix operator expression. -/
def Expr.isPostOp : Expr → Bool
  | .op (.post _) => true
  | _ => false

/-- The top-level insertion loop of `insert_operators`: place a `Mul`
between two adjacent operands, and after a postfix operator followed by an
operand.  (The source performs in-place `Vec::insert`s under an index; the
recursion here inserts the same operators at the same positions.) -/
def insOps : List Expr → List Expr
  | [] => []
  | [x] => [x]
  | x :: y :: rest =>
    if (x.isOperand && y.isOperand) || (x.isPostOp && y.isOperand) then
      x :: Expr.op (.inop .mul) :: insOps (y :: rest)
    else
      x :: insOps (y :: rest)

/-- The recursion phase of `insert_operators`: after the top-level
insertion pass, rebuild each node, recursing into subexpressions and
function arguments.  Fuel-driven (nesting depth is bounded by `sizeOf`,
supplied by the wrapper; at fuel 0 the input is returned unchanged, which
the wrapper never reaches). -/
def insertOperatorsF : ℕ → List Expr → List Expr
  | 0, raw => raw
  | fuel + 1, raw =>
    (insOps raw).map (fun e =>
      match e with
      | .sub ts => Expr.sub (insertOperatorsF fuel ts)
      | .func nm args => Expr.func nm (args.map (insertOperatorsF fuel))
      | e => e)

/-! ## Precedence linearizer (`tokenexprs_to_postfix`, `src/term.rs`) -/

/-- The inner `while let Some(top_op) = ops.pop()` loop of the shunting
yard: pop pending operators to the output while `should_shunt` says the
top must be evaluated before the incoming operator `op`; the first
operator that does not satisfy the rule is put back.  Returns the new
pending stack (head = top) and output. -/
def shuntPop (op : Op) : List Op → List Expr → List Op × List Expr
  | [], stack => ([], stack)
  | top :: rest, stack =>
    if op.shouldShunt top then shuntPop op rest (stack ++ [Expr.op top])
    else (top :: rest, stack)

/-- The scanning loop of `tokenexprs_to_postfix` (`src/term.rs`),
parameterized by the linearizer used on nested subexpressions and
function arguments: operands to the output, operators through the pending
stack per `should_shunt`; leftover operators are flushed at the end. -/
def postfixGoP (lin : List Expr → List Expr) : List Expr → List Expr → List Op → List Expr
  | [], stack, ops => stack ++ ops.map Expr.op
  | .num n :: rest, stack, ops => postfixGoP lin rest (stack ++ [.num n]) ops
  | .op o :: rest, stack, ops =>
    let so := shuntPop o ops stack
    postfixGoP lin rest so.2 (o :: so.1)
  | .var nm :: rest, stack, ops => postfixGoP lin rest (stack ++ [.var nm]) ops
  | .func nm args :: rest, stack, ops =>
    postfixGoP lin rest (stack ++ [.func nm (args.map lin)]) ops
  | .sub ts :: rest, stack, ops => postfixGoP lin rest (stack ++ [.sub (lin ts)]) ops

/-- Fuel-driven recursion of the linearizer into nested groups (`sizeOf`
bounds the nesting depth; at fuel 0 the input is returned unchanged, which
the wrapper never reaches). -/
def postfixLinearizeF : ℕ → List Expr → List Expr
  | 0, raw => raw
  | fuel + 1, raw => postfixGoP (fun l => postfixLinearizeF fuel l) raw [] []

/-! ## Tree compiler (`postfix_to_term`, `src/term.rs`) -/

/-- Build the operation node for a binary operator, popping its two
operands (second operand first, matching the field evaluation order of the
Rust struct literals). -/
def binNode (mk : Term → Term → Oper) : List Term → PRes (Term × List Term)
  | b :: a :: st => .ok (Term.operation (mk a b), st)
  | _ => .err (.expected .expression)

/-- Build the operation node for a unary operator, popping its operand. -/
def unNode (mk : Term → Oper) : List Term → PRes (Term × List Term)
  | a :: st => .ok (Term.operation (mk a), st)
  | _ => .err (.expected .expression)

/-- Dispatch an operator token to its operation node (the `match op` of
`postfix_to_term`). -/
def opNode (o : Op) (stack : List Term) : PRes (Term × List Term) :=
  match o with
  | .inop .add => binNode .add stack
  | .inop .sub => binNode .sub stack
  | .inop .mul => binNode .mul stack
  | .inop .div => binNode .div stack
  | .inop .pow => binNode .pow stack
  | .pre .neg => unNode .neg stack
  | .pre .pos => unNode .pos stack
  | .post .fact => unNode .fact stack
  | .post .percent => unNode .percent stack

/-- The stack-machine loop of `postfix_to_term` (`src/term.rs`),
parameterized by the compiler used on nested subexpressions and function
arguments.  The operand stack grows at the head.  Literals go through
`N::from_f64(num, ctx).unwrap()` (a hypothetical error would panic); at
the end, a stack with more than one entry is `Expected::Operator`, an
empty stack is `Expected::Expression`. -/
def postfixToTermGoP (ctx : Ctx) (compile : List Expr → PRes Term) :
    List Expr → List Term → PRes Term
  | [], stack =>
    if stack.length > 1 then .err (.expected .operator)
    else
      match stack with
      | t :: _ => .ok t
      | [] => .err (.expected .expression)
  | .num n :: rest, stack =>
    match f64fromF64 (.finite n) ctx with
    | .ok a => postfixToTermGoP ctx compile rest (Term.num a :: stack)
    | .error _ => .panicked
  | .op o :: rest, stack =>
    match opNode o stack with
    | .ok (t, st) => postfixToTermGoP ctx compile rest (t :: st)
    | .err e => .err e
    | .panicked => .panicked
  | .var nm :: rest, stack => postfixToTermGoP ctx compile rest (Term.var nm :: stack)
  | .sub ts :: rest, stack =>
    match compile ts with
    | .ok t => postfixToTermGoP ctx compile rest (t :: stack)
    | .err e => .err e
    | .panicked => .panicked
  | .func nm args :: rest, stack =>
    match args.mapM compile with
    | .ok newArgs => postfixToTermGoP ctx compile rest (Term.function nm newArgs :: stack)
    | .err e => .err e
    | .panicked => .panicked

/-- Fuel-driven recursion of the tree compiler into nested groups
(`sizeOf` bounds the nesting depth, so the fuel sentinel is unreachable
from the wrapper). -/
def postfixToTermF : ℕ → List Expr → Ctx → PRes Term
  | 0, _, _ => .panicked
  | fuel + 1, raw, ctx => postfixToTermGoP ctx (fun l => postfixToTermF fuel l ctx) raw []

/-! ## The parse pipeline (`Term::parse_ctx`, `src/term.rs`) -/

/-- Model of Rust `str::trim`: drop whitespace from both ends. -/
def trimChars (raw : List Char) : List Char :=
  ((raw.dropWhile Char.isWhitespace).reverse.dropWhile Char.isWhitespace).reverse

/-- `Term::parse_ctx` from `src/term.rs`: trim, lex, group, resolve
names, optionally insert implicit multiplications, linearize, compile.
The fuel handed to the recursive stages is the character count of the
input plus one: every level of nesting consumes at least one input
character, so the fuel sentinels are unreachable. -/
def parseCtx (raw : String) (ctx : Ctx) : PRes Term := do
  let chars := trimChars raw.toList
  let fuel := chars.length + 1
  let parenTokens ← getTokens chars
  let exprs ← parenToExprsF fuel parenTokens ctx
  let exprs := if ctx.cfg.implicitMultiplication then insertOperatorsF fuel exprs else exprs
  let pf := postfixLinearizeF fuel exprs
  postfixToTermF fuel pf ctx

/-- `Term::parse` from `src/term.rs`: parse against the default context. -/
def parseTerm (raw : String) : PRes Term := parseCtx raw Ctx.new

/-! ## Evaluation (`Term::eval_ctx`, `src/term.rs`; `src/opers.rs`;
`src/context.rs` module `funcs`)

`Term::eval_ctx` recurses through context variables, so its recursion is
not structural; it is modelled with an explicit fuel parameter.  The
outcome type distinguishes a `MathError`, a Rust panic (`unimplemented!()`
in `Fact::eval`, `unwrap` of `None` in `Max`/`Min`), and fuel exhaustion
(which stands for non-termination and is never reached in any concrete
evaluation below). -/

/-- Outcome of an evaluation step. -/
inductive EOut (α : Type) where
  | ok (a : α)
  | err (e : MathError)
  | panicked
  | fuelOut
deriving DecidableEq

/-- Bind for `EOut`. -/
def EOut.bind : EOut α → (α → EOut β) → EOut β
  | .ok a, f => f a
  | .err e, _ => .err e
  | .panicked, _ => .panicked
  | .fuelOut, _ => .fuelOut

instance : Monad EOut where
  pure := EOut.ok
  bind := EOut.bind

/-- Lift a `Calculation` result (`Result<Answer, MathError>`) into an
evaluation outcome. -/
def calcOut : Calculation F64 → EOut (Answer F64)
  | .ok a => .ok a
  | .error e => .err e

/-- An evaluation function for subterms, as passed to the operation and
builtin-function bodies (instantiated with `evalFuel` at one lower fuel). -/
abbrev EvalFn := Term → EOut (Answer F64)

/-- The `Operate::eval` bodies of `src/opers.rs`: evaluate the operand
sub-terms left to right, then combine through the answer algebra with the
matching `f64` contract operation.  `Neg` and `Percent` multiply by the
`from_f64` constants `-1.0` and `-0.01` respectively, `Pos` passes its
operand through, and `Fact` is `unimplemented!()` (a panic, before its
operand is even evaluated). -/
def operEval (ev : EvalFn) (o : Oper) (ctx : Ctx) : EOut (Answer F64) :=
  match o with
  | .add a b => do
    let va ← ev a
    let vb ← ev b
    calcOut (va.op vb (fun x y => f64addOp x y ctx))
  | .sub a b => do
    let va ← ev a
    let vb ← ev b
    calcOut (va.op vb (fun x y => f64subOp x y ctx))
  | .mul a b => do
    let va ← ev a
    let vb ← ev b
    calcOut (va.op vb (fun x y => f64mulOp x y ctx))
  | .div a b => do
    let va ← ev a
    let vb ← ev b
    calcOut (va.op vb (fun x y => f64divOp x y ctx))
  | .pow a b => do
    let va ← ev a
    let vb ← ev b
    calcOut (va.op vb (fun x y => f64powOp x y ctx))
  | .neg a => do
    let va ← ev a
    match f64fromF64 (.finite (-1)) ctx with
    | .ok c => calcOut (va.op c (fun x y => f64mulOp x y ctx))
    | .error e => .err e
  | .pos a => do
    let va ← ev a
    pure va
  | .fact _ => .panicked
  | .percent a => do
    let va ← ev a
    match f64fromF64 (.finite (-1/100)) ctx with
    | .ok c => calcOut (va.op c (fun x y => f64mulOp x y ctx))
    | .error e => .err e

/-- Evaluate every argument of a builtin function (the
`args.iter().map(..).collect::<Result<..>>()` step of `Max`/`Min`). -/
def evalArgs (ev : EvalFn) : List Term → EOut (List (Answer F64))
  | [] => .ok []
  | t :: ts => do
    let a ← ev t
    let rest ← evalArgs ev ts
    pure (a :: rest)

/-- Flatten evaluated answers into a flat value list (the `new_args`
construction of `Max`/`Min`). -/
def flattenAnswers (l : List (Answer F64)) : List F64 :=
  l.foldr (fun a acc => a.toVec ++ acc) []

/-- The comparison loop of `Max::eval`: fold `tryord` over the remaining
values, keeping the greater one, aborting on a comparison error. -/
def maxLoop : List F64 → F64 → Except MathError F64
  | [], m => .ok m
  | x :: xs, m =>
    match f64tryord x m with
    | .error e => .error e
    | .ok .gt => maxLoop xs x
    | .ok _ => maxLoop xs m

/-- The comparison loop of `Min::eval`. -/
def minLoop : List F64 → F64 → Except MathError F64
  | [], m => .ok m
  | x :: xs, m =>
    match f64tryord x m with
    | .error e => .error e
    | .ok .lt => minLoop xs x
    | .ok _ => minLoop xs m

/-- `Max::eval` from `src/context.rs`: reject an empty argument list;
take the initial candidate from the first argument (a `Multiple` pops its
last value, the rest become `extra`; popping from an empty `Multiple`
panics); then compare every further value (and the extras) against the
running maximum with `tryord`. -/
def maxEval (ev : EvalFn) (args : List Term) (_ctx : Ctx) : EOut (Answer F64) :=
  match args with
  | [] => .err .incorrectArguments
  | a0 :: _ => do
    let first ← ev a0
    let start : EOut (F64 × List F64) :=
      match first with
      | .single n => .ok (n, [])
      | .multiple ns =>
        match ns.getLast? with
        | some one => .ok (one, ns.dropLast)
        | none => .panicked
    let (m, extra) ← start
    let answers ← evalArgs ev args
    let newArgs := flattenAnswers answers
    match maxLoop (newArgs.drop 1 ++ extra) m with
    | .ok res => pure (.single res)
    | .error e => .err e

/-- `Min::eval` from `src/context.rs` (mirror image of `Max::eval`). -/
def minEval (ev : EvalFn) (args : List Term) (_ctx : Ctx) : EOut (Answer F64) :=
  match args with
  | [] => .err .incorrectArguments
  | a0 :: _ => do
    let first ← ev a0
    let start : EOut (F64 × List F64) :=
      match first with
      | .single n => .ok (n, [])
      | .multiple ns =>
        match ns.getLast? with
        | some one => .ok (one, ns.dropLast)
        | none => .panicked
    let (m, extra) ← start
    let answers ← evalArgs ev args
    let newArgs := flattenAnswers answers
    match minLoop (newArgs.drop 1 ++ extra) m with
    | .ok res => pure (.single res)
    | .error e => .err e

/-- A one-argument builtin (`Sin`, `Cos`, ... of `src/context.rs`):
arity check, evaluate, `Answer::unop`. -/
def unaryFuncEval (ev : EvalFn) (oper : F64 → Calculation F64) (args : List Term) :
    EOut (Answer F64) :=
  match args with
  | [a] => do
    let va ← ev a
    calcOut (va.unop oper)
  | _ => .err .incorrectArguments

/-- A two-argument builtin (`Nrt`, `Atan2`, `Log` of `src/context.rs`):
arity check, evaluate both, `Answer::op`. -/
def binaryFuncEval (ev : EvalFn) (oper : F64 → F64 → Calculation F64) (args : List Term) :
    EOut (Answer F64) :=
  match args with
  | [a, b] => do
    let va ← ev a
    let vb ← ev b
    calcOut (va.op vb oper)
  | _ => .err .incorrectArguments

/-- Dispatch a builtin function of the default context to its `Func::eval`
body (`src/context.rs`, module `funcs`). -/
def bfuncEval (ev : EvalFn) (f : BFunc) (args : List Term) (ctx : Ctx) : EOut (Answer F64) :=
  match f with
  | .sin => unaryFuncEval ev (fun a => f64sinOp a ctx) args
  | .cos => unaryFuncEval ev (fun a => f64cosOp a ctx) args
  | .max => maxEval ev args ctx
  | .min => minEval ev args ctx
  | .sqrt => unaryFuncEval ev (fun a => f64sqrtOp a ctx) args
  | .nrt => binaryFuncEval ev (fun a b => f64nrtOp a b ctx) args
  | .tan => unaryFuncEval ev (fun a => f64tanOp a ctx) args
  | .abs => unaryFuncEval ev (fun a => f64absOp a ctx) args
  | .asin => unaryFuncEval ev (fun a => f64asinOp a ctx) args
  | .acos => unaryFuncEval ev (fun a => f64acosOp a ctx) args
  | .atan => unaryFuncEval ev (fun a => f64atanOp a ctx) args
  | .atan2 => binaryFuncEval ev (fun a b => f64atan2Op a b ctx) args
  | .floor => unaryFuncEval ev (fun a => f64floorOp a ctx) args
  | .ceil => unaryFuncEval ev (fun a => f64ceilOp a ctx) args
  | .round => unaryFuncEval ev (fun a => f64roundOp a ctx) args
  | .log => binaryFuncEval ev (fun a b => f64logOp a b ctx) args

/-- `Term::eval_ctx` from `src/term.rs`, with fuel: literals return their
stored answer, operation nodes dispatch to `src/opers.rs`, function nodes
look up the function table (missing name → `UndefinedFunction`), variable
nodes look up the variable table and evaluate the bound term (missing name
→ `UndefinedVariable`). -/
def evalFuel : ℕ → Term → Ctx → EOut (Answer F64)
  | 0, _, _ => .fuelOut
  | fuel + 1, t, ctx =>
    match t with
    | .num a => .ok a
    | .operation o => operEval (fun t' => evalFuel fuel t' ctx) o ctx
    | .function name args =>
      match ctx.funcs.lookup name with
      | some f => bfuncEval (fun t' => evalFuel fuel t' ctx) f args ctx
      | none => .err (.undefinedFunction name)
    | .var name =>
      match ctx.vars.lookup name with
      | some vt => evalFuel fuel vt ctx
      | none => .err (.undefinedVariable name)

/-- Parse with a context, then evaluate with the same context and the
given fuel (the `parse`-then-`eval` composition of `src/lib.rs`);
`none` when parsing fails. -/
def parseEval (raw : String) (ctx : Ctx) (fuel : ℕ) : Option (EOut (Answer F64)) :=
  match parseCtx raw ctx with
  | .ok t => some (evalFuel fuel t ctx)
  | _ => none

/-- The default context with implicit multiplication switched off (used
to exercise the unconditional function-call branch of `paren_to_exprs`). -/
def ctxNoImplicitMul : Ctx :=
  { Ctx.new with cfg := { Config.new with implicitMultiplication := false } }

/-! ## Specification-side definitions

These definitions follow the words of the specification (not the source)
and are compared against the source-derived definitions above. -/

/-- Apply a fallible operation to every element in order, collecting the
results and aborting on the first error (the specification's fail-fast
traversal). -/
def exceptMapList (f : α → Except ε β) : List α → Except ε (List β)
  | [] => .ok []
  | x :: xs =>
    match f x with
    | .error e => .error e
    | .ok y =>
      match exceptMapList f xs with
      | .error e => .error e
      | .ok ys => .ok (y :: ys)

/-- The answer-combination algebra as §4.7 of the specification states it:
Single⊗Single is whatever the operation returns; a Multiple on either side
applies the operation against every element in order (a full cross product
when both sides are Multiple), flattens every sub-result into one
Multiple, and aborts on the first failing application. -/
def specCombine (a b : Answer α) (oper : α → α → Calculation α) : Calculation α :=
  match a, b with
  | .single n, .single n2 => oper n n2
  | .single n, .multiple n2s =>
    (exceptMapList (fun n2 => oper n n2) n2s).map
      (fun rs => .multiple (rs.map Answer.toVec).flatten)
  | .multiple ns, .single n2 =>
    (exceptMapList (fun n => oper n n2) ns).map
      (fun rs => .multiple (rs.map Answer.toVec).flatten)
  | .multiple ns, .multiple n2s =>
    (exceptMapList (fun n => exceptMapList (fun n2 => oper n n2) n2s) ns).map
      (fun rss => .multiple (rss.map (fun rs => (rs.map Answer.toVec).flatten)).flatten)

/-- Tracks the parenthesis-depth scan of the specification (§4.2): true
when the nesting depth goes negative at some point, i.e. a closing
parenthesis arrives at depth 0. -/
def negDepth : List Token → ℕ → Bool
  | [], _ => false
  | .paren .close :: rest, d => if d = 0 then true else negDepth rest (d - 1)
  | .paren .open_ :: rest, d => negDepth rest (d + 1)
  | _ :: rest, d => negDepth rest d

/-- The nesting depth goes negative at some point of the token stream. -/
def goesNegative (l : List Token) : Bool := negDepth l 0

/-- The nesting depth at the end of the token stream. -/
def finalDepth (l : List Token) : ℤ :=
  l.foldl (fun d t =>
    match t with
    | .paren .open_ => d + 1
    | .paren .close => d - 1
    | _ => d) 0

/-! ## Theorems

The rational arithmetic of Batteries is marked irreducible (it is fully
executable; the attribute only hides it from `whnf`); it is restored to
`semireducible` here so that concrete pipeline computations can be settled
by `decide`. -/

attribute [local semireducible] Rat.mul Rat.add Rat.sub Rat.inv Rat.ofScientific

theorem numLoop_buf_chars : ∀ (raw buf : List Char) (dot : Bool) (buf' rest : List Char),
    numLoop raw buf dot = some (buf', rest) →
    (∀ c ∈ buf, c.isDigit ∨ c = '.') →
    ∀ c ∈ buf', c.isDigit ∨ c = '.' := by
  intro raw
  induction raw with
  | nil =>
    intro buf dot buf' rest h hbuf
    rw [numLoop] at h
    split at h
    · exact absurd h (by simp)
    · simp only [Option.some.injEq, Prod.mk.injEq] at h
      obtain ⟨h1, _⟩ := h
      subst h1
      exact hbuf
  | cons c cs ih =>
    intro buf dot buf' rest h hbuf
    rw [numLoop] at h
    by_cases hd : c.isDigit
    · rw [if_pos hd] at h
      refine ih _ _ _ _ h ?_
      intro x hx
      rcases List.mem_append.mp hx with hx | hx
      · exact hbuf x hx
      · simp at hx
        subst hx
        left
        exact hd
    · rw [if_neg hd] at h
      by_cases hp : c = '.'
      · rw [if_pos hp] at h
        by_cases hdot : dot
        · simp [hdot] at h
        · simp only [hdot, Bool.not_false, if_pos] at h
          refine ih _ _ _ _ h ?_
          intro x hx
          rcases List.mem_append.mp hx with hx | hx
          · exact hbuf x hx
          · simp at hx
            subst hx
            right
            exact hp
      · rw [if_neg hp] at h
        split at h
        · exact absurd h (by simp)
        · simp only [Option.some.injEq, Prod.mk.injEq] at h
          obtain ⟨h1, _⟩ := h
          subst h1
          exact hbuf

/-- C10: the `buf == "-"` branch of `next_num` is unreachable — the
accumulated buffer only ever holds decimal digits and at most one period,
so `next_num` coincides everywhere with the variant that lacks the
negative-one special case and never produces a `-1.0` literal from a bare
minus sign. -/
theorem nextNum_dash_branch_dead : ∀ raw : List Char, nextNum raw = nextNumNoDash raw := by
  intro raw
  rcases h : numLoop raw [] false with _ | ⟨buf, rest⟩
  · simp [nextNum, nextNumNoDash, h]
  · have hchars := numLoop_buf_chars raw [] false buf rest h (by intro c hc; simp at hc)
    cases rest with
    | nil =>
      have hne : ¬ buf = ['-'] := by
        intro he
        subst he
        have := hchars '-' (by simp)
        simp at this
      simp [nextNum, nextNumNoDash, h, hne]
    | cons r rs => simp [nextNum, nextNumNoDash, h]

/-- C1: the unary operation nodes of `src/opers.rs` evaluated on the
single value 100 with the `f64` backend: the prefix-negate node multiplies
by `-1.0` (giving `-100`), the prefix-positive node passes its operand
through unchanged (giving `100`) — but the postfix-percent node multiplies
by `-0.01`, not `0.01`, so `(100)%` evaluates to `-1` instead of `1`; the
same divergence is reached by parsing and evaluating the string `"100%"`. -/
theorem percent_multiplies_by_negative_hundredth :
    evalFuel 2 (Term.operation (.percent (Term.num (.single (.finite 100))))) Ctx.empty
      = .ok (.single (.finite (-1)))
    ∧ evalFuel 2 (Term.operation (.neg (Term.num (.single (.finite 100))))) Ctx.empty
      = .ok (.single (.finite (-100)))
    ∧ evalFuel 2 (Term.operation (.pos (Term.num (.single (.finite 100))))) Ctx.empty
      = .ok (.single (.finite 100))
    ∧ parseEval "100%" Ctx.new 10 = some (.ok (.single (.finite (-1)))) := by
  refine ⟨by decide, by decide, by decide, by decide⟩

/-- C7: parsing `"2 * y"` against the default context (which has no
binding for `y`) succeeds, and the missing binding is only reported at
evaluation time, as `UndefinedVariable` carrying the name `"y"`. -/
theorem undefined_variable_reported_at_eval :
    parseEval "2 * y" Ctx.new 10 = some (.err (.undefinedVariable "y")) := by
  decide

/-- C9 (counterexample): a term that contains a factorial node need not
panic — when an earlier operand fails first, evaluation returns that
`MathError`: `y + (1)!` with `y` unbound returns `UndefinedVariable`. -/
theorem fact_term_can_return_error :
    evalFuel 3 (Term.operation (.add (Term.var "y")
      (Term.operation (.fact (Term.num (.single (.finite 1))))))) Ctx.empty
      = .err (.undefinedVariable "y") := by
  decide

/-- C9 (amended): evaluating a factorial node itself always panics
(`unimplemented!()`), immediately and without evaluating its operand, for
every fuel, operand and context; in particular parsing and evaluating
`"1!"` panics rather than returning a `MathError`. -/
theorem fact_node_panics :
    (∀ (fuel : ℕ) (a : Term) (ctx : Ctx),
      evalFuel (fuel + 1) (Term.operation (.fact a)) ctx = .panicked)
    ∧ parseEval "1!" Ctx.new 5 = some .panicked := by
  constructor
  · intro fuel a ctx
    rfl
  · decide

/-- C6: the linearizer pops a pending operator (`other`, the top of the
stack) before pushing the incoming operator (`self`) exactly when the
pending operator has strictly greater precedence, or equal precedence and
is left-associative — both as the `should_shunt` predicate and as the pop
loop itself; consequently, power being right-associative, `"2 ^ 3 ^ 2"`
evaluates to `2 ^ (3 ^ 2) = 512`, not `64`. -/
theorem shunt_pop_rule_and_pow_right_assoc :
    (∀ self other : Op, self.shouldShunt other =
      ((other.precedence > self.precedence) ||
        (other.precedence = self.precedence && other.isLeftAssociative)))
    ∧ (∀ (op top : Op) (rest : List Op) (stack : List Expr),
      shuntPop op (top :: rest) stack =
        if (top.precedence > op.precedence) ||
            (top.precedence = op.precedence && top.isLeftAssociative) then
          shuntPop op rest (stack ++ [Expr.op top])
        else (top :: rest, stack))
    ∧ parseEval "2 ^ 3 ^ 2" Ctx.new 10 = some (.ok (.single (.finite 512))) := by
  refine ⟨fun self other => rfl, fun op top rest stack => rfl, by decide⟩

/-- C8: during grouping-to-expression conversion, a name immediately
followed by a parenthesized group becomes a function call when the name is
in the context's function table (or unconditionally when implicit
multiplication is disabled), and otherwise becomes a variable reference
followed by the sub-group as a separate adjacent node; observably,
`sqrt(4)` calls the builtin, `y(4)` under the default context multiplies
the variable `y` (failing at evaluation with `UndefinedVariable`), and
`y(4)` without implicit multiplication is the function call `y`
(failing at evaluation with `UndefinedFunction`). -/
theorem name_group_resolution :
    (∀ (fuel : ℕ) (ctx : Ctx) (nm : String) (s rest : List ParenToken),
      parenToExprsF (fuel + 1) (.name nm :: .sub s :: rest) ctx =
        if ctx.cfg.implicitMultiplication then
          if ctx.funcsContains nm then
            (do
              let args ← tokensToArgsP (fun p => parenToExprsF fuel p ctx) s
              let r ← parenToExprsF fuel rest ctx
              PRes.ok (Expr.func nm args :: r))
          else
            (do
              let inner ← parenToExprsF fuel s ctx
              let r ← parenToExprsF fuel rest ctx
              PRes.ok (Expr.var nm :: Expr.sub inner :: r))
        else
          (do
            let args ← tokensToArgsP (fun p => parenToExprsF fuel p ctx) s
            let r ← parenToExprsF fuel rest ctx
            PRes.ok (Expr.func nm args :: r)))
    ∧ parseEval "sqrt(4)" Ctx.new 10 = some (.ok (.multiple [.finite 2, .finite (-2)]))
    ∧ parseEval "y(4)" Ctx.new 10 = some (.err (.undefinedVariable "y"))
    ∧ parseEval "y(4)" ctxNoImplicitMul 10 = some (.err (.undefinedFunction "y")) := by
  refine ⟨fun fuel ctx nm s rest => rfl, by decide, by decide, by decide⟩

theorem opAll_eq (f : α → Calculation α) :
    ∀ (xs acc : List α),
      opAll f xs acc =
        (exceptMapList f xs).map (fun rs => acc ++ (rs.map Answer.toVec).flatten) := by
  intro xs
  induction xs with
  | nil =>
    intro acc
    simp [opAll, exceptMapList, Except.map]
  | cons x xs ih =>
    intro acc
    rw [opAll, exceptMapList]
    cases hfx : f x with
    | error e => simp [Except.map]
    | ok a =>
      cases hxs : exceptMapList f xs with
      | error e => simp [Except.map, ih, hxs]
      | ok rs => simp [Except.map, ih, hxs, pushAnswers, List.append_assoc]

theorem opAllPairs_eq (oper : α → α → Calculation α) (n2s : List α) :
    ∀ (ns acc : List α),
      opAllPairs oper n2s ns acc =
        (exceptMapList (fun n => exceptMapList (fun n2 => oper n n2) n2s) ns).map
          (fun rss => acc ++ (rss.map (fun rs => (rs.map Answer.toVec).flatten)).flatten) := by
  intro ns
  induction ns with
  | nil =>
    intro acc
    simp [opAllPairs, exceptMapList, Except.map]
  | cons n ns ih =>
    intro acc
    rw [opAllPairs, opAll_eq, exceptMapList]
    cases hrow : exceptMapList (fun n2 => oper n n2) n2s with
    | error e => simp [Except.map]
    | ok rs =>
      cases hrest : exceptMapList (fun n => exceptMapList (fun n2 => oper n n2) n2s) ns with
      | error e => simp [Except.map, ih, hrest]
      | ok rss => simp [Except.map, ih, hrest, List.append_assoc]

/-- C2: `Answer::op` implements the specified combination algebra —
Single⊗Multiple and Multiple⊗Single apply the operation between the
single value and every element of the multiple side in order,
Multiple⊗Multiple applies it to every pair (row-major full cross
product), all sub-results are flattened into one `Multiple` preserving
first-encountered order with no deduplication, and the first failing
application aborts with that error (this is `specCombine`, whose `mapM`
aborts on the first error); in particular `sqrt(4) + 1` with multi-valued
square root enabled yields `Answer::Multiple([3, -1])`. -/
theorem answer_op_matches_spec :
    (∀ (α : Type) (a b : Answer α) (oper : α → α → Calculation α),
      a.op b oper = specCombine a b oper)
    ∧ parseEval "sqrt(4) + 1" Ctx.new 10
        = some (.ok (.multiple [.finite 3, .finite (-1)])) := by
  constructor
  · intro α a b oper
    cases a with
    | single n =>
      cases b with
      | single n2 => rfl
      | multiple n2s =>
        rw [Answer.op, specCombine, opAll_eq]
        cases hxs : exceptMapList (fun n2 => oper n n2) n2s with
        | error e => simp [Except.map]
        | ok rs => simp [Except.map]
    | multiple ns =>
      cases b with
      | single n2 =>
        rw [Answer.op, specCombine, opAll_eq]
        cases hxs : exceptMapList (fun n => oper n n2) ns with
        | error e => simp [Except.map]
        | ok rs => simp [Except.map]
      | multiple n2s =>
        rw [Answer.op, specCombine, opAllPairs_eq]
        cases hxs : exceptMapList (fun n => exceptMapList (fun n2 => oper n n2) n2s) ns with
        | error e => simp [Except.map]
        | ok rss => simp [Except.map]
  · decide

theorem toVec_length_pos {α : Type} {a : Answer α} (h : a.wf = true) :
    1 ≤ a.toVec.length := by
  cases a with
  | single n => simp [Answer.toVec]
  | multiple ns =>
    simp [Answer.wf] at h
    simp [Answer.toVec]
    omega

theorem opAll_length {α : Type} (f : α → Calculation α)
    (hf : ∀ x r, f x = .ok r → r.wf = true) :
    ∀ (xs acc res : List α), opAll f xs acc = .ok res →
      acc.length + xs.length ≤ res.length := by
  intro xs
  induction xs with
  | nil =>
    intro acc res h
    simp [opAll] at h
    subst h
    simp
  | cons x xs ih =>
    intro acc res h
    rw [opAll] at h
    cases hfx : f x with
    | error e => rw [hfx] at h; exact absurd h (by simp)
    | ok a =>
      rw [hfx] at h
      have := ih (pushAnswers a acc) res h
      have hlen : 1 ≤ a.toVec.length := toVec_length_pos (hf x a hfx)
      simp [pushAnswers] at this
      simp only [List.length_cons]
      omega

theorem opAllPairs_length {α : Type} (oper : α → α → Calculation α) (n2s : List α)
    (hf : ∀ x y r, oper x y = .ok r → r.wf = true) :
    ∀ (ns acc res : List α), opAllPairs oper n2s ns acc = .ok res →
      acc.length + ns.length * n2s.length ≤ res.length := by
  intro ns
  induction ns with
  | nil =>
    intro acc res h
    simp [opAllPairs] at h
    subst h
    simp
  | cons n ns ih =>
    intro acc res h
    rw [opAllPairs] at h
    cases hrow : opAll (fun n2 => oper n n2) n2s acc with
    | error e => rw [hrow] at h; exact absurd h (by simp)
    | ok acc2 =>
      rw [hrow] at h
      have h1 := opAll_length (fun n2 => oper n n2) (fun x r hx => hf n x r hx) n2s acc acc2 hrow
      have h2 := ih acc2 res h
      simp only [List.length_cons]
      calc acc.length + (ns.length + 1) * n2s.length
          = (acc.length + n2s.length) + ns.length * n2s.length := by ring
        _ ≤ acc2.length + ns.length * n2s.length := by omega
        _ ≤ res.length := h2

theorem wf_of_ok_single {α : Type} {v : α} {r : Answer α}
    (h : (Except.ok (Answer.single v) : Calculation α) = .ok r) : r.wf = true := by
  simp at h
  subst h
  rfl

/-- C3: the `Multiple`-never-fewer-than-two invariant is preserved: if the
input answers satisfy it and the numeric operation only produces answers
satisfying it, then `Answer::op` and `Answer::unop` only produce answers
satisfying it; and every numeric-contract operation of the `f64` backend
produces only answers satisfying it (everything is a `Single` except
`sqrt`, whose multi-valued variant holds exactly two entries). -/
theorem multiple_invariant_preserved :
    (∀ (α : Type) (a b : Answer α) (oper : α → α → Calculation α) (r : Answer α),
      a.wf = true → b.wf = true →
      (∀ x y r', oper x y = .ok r' → r'.wf = true) →
      a.op b oper = .ok r → r.wf = true)
    ∧ (∀ (α : Type) (a : Answer α) (oper : α → Calculation α) (r : Answer α),
      a.wf = true →
      (∀ x r', oper x = .ok r' → r'.wf = true) →
      a.unop oper = .ok r → r.wf = true)
    ∧ (∀ (x y : F64) (ctx : Ctx) (r : Answer F64), f64addOp x y ctx = .ok r → r.wf = true)
    ∧ (∀ (x y : F64) (ctx : Ctx) (r : Answer F64), f64subOp x y ctx = .ok r → r.wf = true)
    ∧ (∀ (x y : F64) (ctx : Ctx) (r : Answer F64), f64mulOp x y ctx = .ok r → r.wf = true)
    ∧ (∀ (x y : F64) (ctx : Ctx) (r : Answer F64), f64divOp x y ctx = .ok r → r.wf = true)
    ∧ (∀ (x y : F64) (ctx : Ctx) (r : Answer F64), f64powOp x y ctx = .ok r → r.wf = true)
    ∧ (∀ (x : F64) (ctx : Ctx) (r : Answer F64), f64sqrtOp x ctx = .ok r → r.wf = true)
    ∧ (∀ (x y : F64) (ctx : Ctx) (r : Answer F64), f64nrtOp x y ctx = .ok r → r.wf = true)
    ∧ (∀ (x : F64) (ctx : Ctx) (r : Answer F64), f64absOp x ctx = .ok r → r.wf = true)
    ∧ (∀ (x : F64) (ctx : Ctx) (r : Answer F64), f64sinOp x ctx = .ok r → r.wf = true)
    ∧ (∀ (x : F64) (ctx : Ctx) (r : Answer F64), f64cosOp x ctx = .ok r → r.wf = true)
    ∧ (∀ (x : F64) (ctx : Ctx) (r : Answer F64), f64tanOp x ctx = .ok r → r.wf = true)
    ∧ (∀ (x : F64) (ctx : Ctx) (r : Answer F64), f64asinOp x ctx = .ok r → r.wf = true)
    ∧ (∀ (x : F64) (ctx : Ctx) (r : Answer F64), f64acosOp x ctx = .ok r → r.wf = true)
    ∧ (∀ (x : F64) (ctx : Ctx) (r : Answer F64), f64atanOp x ctx = .ok r → r.wf = true)
    ∧ (∀ (x y : F64) (ctx : Ctx) (r : Answer F64), f64atan2Op x y ctx = .ok r → r.wf = true)
    ∧ (∀ (x : F64) (ctx : Ctx) (r : Answer F64), f64floorOp x ctx = .ok r → r.wf = true)
    ∧ (∀ (x : F64) (ctx : Ctx) (r : Answer F64), f64ceilOp x ctx = .ok r → r.wf = true)
    ∧ (∀ (x : F64) (ctx : Ctx) (r : Answer F64), f64roundOp x ctx = .ok r → r.wf = true)
    ∧ (∀ (x y : F64) (ctx : Ctx) (r : Answer F64), f64logOp x y ctx = .ok r → r.wf = true)
    ∧ (∀ (x : F64) (ctx : Ctx) (r : Answer F64), f64fromF64 x ctx = .ok r → r.wf = true)
    ∧ (∀ (x y : F64) (ctx : Ctx) (r : Answer F64),
      f64fromF64Complex x y ctx = .ok r → r.wf = true) := by
  refine ⟨?op, ?unop, ?add, ?sub, ?mul, ?div, ?pow, ?sqrt, ?nrt, ?abs, ?sin, ?cos, ?tan,
    ?asin, ?acos, ?atan, ?atan2, ?floor, ?ceil, ?round, ?log, ?from64, ?from64c⟩
  case op =>
    intro α a b oper r ha hb hoper h
    cases a with
    | single n =>
      cases b with
      | single n2 => exact hoper n n2 r h
      | multiple n2s =>
        rw [Answer.op] at h
        cases hall : opAll (fun n2 => oper n n2) n2s [] with
        | error e => rw [hall] at h; exact absurd h (by simp)
        | ok answers =>
          rw [hall] at h
          simp at h
          subst h
          have := opAll_length (fun n2 => oper n n2) (fun x r' hx => hoper n x r' hx)
            n2s [] answers hall
          simp [Answer.wf] at hb ⊢
          omega
    | multiple ns =>
      cases b with
      | single n2 =>
        rw [Answer.op] at h
        cases hall : opAll (fun n => oper n n2) ns [] with
        | error e => rw [hall] at h; exact absurd h (by simp)
        | ok answers =>
          rw [hall] at h
          simp at h
          subst h
          have := opAll_length (fun n => oper n n2) (fun x r' hx => hoper x n2 r' hx)
            ns [] answers hall
          simp [Answer.wf] at ha ⊢
          omega
      | multiple n2s =>
        rw [Answer.op] at h
        cases hall : opAllPairs oper n2s ns [] with
        | error e => rw [hall] at h; exact absurd h (by simp)
        | ok answers =>
          rw [hall] at h
          simp at h
          subst h
          have := opAllPairs_length oper n2s hoper ns [] answers hall
          simp [Answer.wf] at ha hb ⊢
          have hmul : 2 * 2 ≤ ns.length * n2s.length := Nat.mul_le_mul ha hb
          omega
  case unop =>
    intro α a oper r ha hoper h
    cases a with
    | single n => exact hoper n r h
    | multiple ns =>
      rw [Answer.unop] at h
      cases hall : opAll oper ns [] with
      | error e => rw [hall] at h; exact absurd h (by simp)
      | ok answers =>
        rw [hall] at h
        simp at h
        subst h
        have := opAll_length oper hoper ns [] answers hall
        simp [Answer.wf] at ha ⊢
        omega
  case div =>
    intro x y ctx r h
    rw [f64divOp] at h
    split at h
    · exact absurd h (by simp)
    · simp at h; subst h; rfl
  case sqrt =>
    intro x ctx r h
    rw [f64sqrtOp] at h
    simp at h
    subst h
    split
    · rfl
    · rfl
  case nrt =>
    intro x y ctx r h
    exact absurd h (by simp [f64nrtOp])
  all_goals intros
  all_goals rename_i h
  all_goals exact wf_of_ok_single h

/-- Witness for `multiple_invariant_preserved` at a concrete instance:
combining `Multiple [2, -2]` with `Single 1` under `f64` addition yields
an answer satisfying the invariant. -/
theorem multiple_invariant_preserved_witness :
    Answer.wf (Answer.multiple [F64.finite 3, F64.finite (-1)]) = true := by
  refine multiple_invariant_preserved.1 F64
    (Answer.multiple [F64.finite 2, F64.finite (-2)]) (Answer.single (F64.finite 1))
    (fun x y => f64addOp x y Ctx.empty)
    (Answer.multiple [F64.finite 3, F64.finite (-1)])
    (by decide) (by decide) ?_ (by rfl)
  intro x y r' h
  simp [f64addOp] at h
  subst h
  rfl

theorem groupLoop_negative :
    ∀ (l : List Token) (acc : List ParenToken) (stack : List (List ParenToken)),
      negDepth l stack.length = true →
      groupLoop l acc stack = .error .mismatchedParentheses := by
  intro l
  induction l with
  | nil =>
    intro acc stack h
    simp [negDepth] at h
  | cons t rest ih =>
    intro acc stack h
    cases t with
    | paren p =>
      cases p with
      | open_ =>
        rw [negDepth] at h
        rw [groupLoop]
        exact ih [] (acc :: stack) (by simpa using h)
      | close =>
        rw [negDepth] at h
        cases stack with
        | nil => rfl
        | cons parent st =>
          rw [groupLoop]
          refine ih (parent ++ [.sub acc]) st ?_
          simpa using h
    | num n =>
      rw [groupLoop]
      refine ih (acc ++ [.num n]) stack ?_
      simpa [negDepth] using h
    | op o =>
      rw [groupLoop]
      refine ih (acc ++ [.op o]) stack ?_
      simpa [negDepth] using h
    | name nm =>
      rw [groupLoop]
      refine ih (acc ++ [.name nm]) stack ?_
      simpa [negDepth] using h
    | comma =>
      rw [groupLoop]
      refine ih (acc ++ [.comma]) stack ?_
      simpa [negDepth] using h

/-- C4 (counterexample): the grouping step does not detect an unclosed
open parenthesis — a lone `(` leaves the nesting depth at 1 at the end of
the input, yet `to_paren_tokens` returns `Ok` (an empty grouping) instead
of `MismatchedParentheses`. -/
theorem unclosed_paren_not_detected :
    finalDepth [Token.paren Paren.open_] = 1
    ∧ toParenTokens [Token.paren Paren.open_] = .ok [] := ⟨rfl, rfl⟩

/-- C4 (amended): grouping fails with `MismatchedParentheses` whenever
the parenthesis nesting depth goes negative at some point of the token
stream; a nesting depth that is merely nonzero at the end of the input is
not detected — the unclosed trailing group is silently dropped (witnessed
by the lone open parenthesis, which groups to `Ok([])`). -/
theorem mismatched_parens_on_negative_depth :
    (∀ raw : List Token, goesNegative raw = true →
      toParenTokens raw = .error .mismatchedParentheses)
    ∧ toParenTokens [Token.paren Paren.open_] = .ok [] := by
  constructor
  · intro raw h
    exact groupLoop_negative raw [] [] (by simpa [goesNegative] using h)
  · rfl

/-- Witness for `mismatched_parens_on_negative_depth`: a lone closing
parenthesis drives the depth negative and is rejected. -/
theorem mismatched_parens_on_negative_depth_witness :
    toParenTokens [Token.paren Paren.close] = .error .mismatchedParentheses :=
  mismatched_parens_on_negative_depth.1 [Token.paren Paren.close] (by decide)

theorem f64tryord_nan {x m : F64} (h : x = F64.nan ∨ m = F64.nan) :
    f64tryord x m = .error .cmpError := by
  cases x <;> cases m <;> simp_all [f64tryord]

theorem f64tryord_error_nan {x m : F64} {e : MathError}
    (h : f64tryord x m = .error e) : x = F64.nan ∨ m = F64.nan := by
  cases x <;> cases m <;> simp_all [f64tryord, ratCompare]

theorem maxLoop_nan : ∀ (L : List F64) (m : F64), L ≠ [] →
    (m = F64.nan ∨ F64.nan ∈ L) → maxLoop L m = .error .cmpError := by
  intro L
  induction L with
  | nil => intro m h _; exact absurd rfl h
  | cons x xs ih =>
    intro m _ hmem
    by_cases hx : x = F64.nan ∨ m = F64.nan
    · rw [maxLoop, f64tryord_nan hx]
    · push_neg at hx
      obtain ⟨hx1, hx2⟩ := hx
      have hxs : F64.nan ∈ xs := by
        rcases hmem with h | h
        · exact absurd h hx2
        · rcases List.mem_cons.mp h with h | h
          · exact absurd h.symm hx1
          · exact h
      have hxs_ne : xs ≠ [] := List.ne_nil_of_mem hxs
      rw [maxLoop]
      cases hord : f64tryord x m with
      | error e =>
        rcases f64tryord_error_nan hord with h | h
        · exact absurd h hx1
        · exact absurd h hx2
      | ok o =>
        cases o with
        | gt => exact ih x hxs_ne (Or.inr hxs)
        | lt => exact ih m hxs_ne (Or.inr hxs)
        | eq => exact ih m hxs_ne (Or.inr hxs)

theorem minLoop_nan : ∀ (L : List F64) (m : F64), L ≠ [] →
    (m = F64.nan ∨ F64.nan ∈ L) → minLoop L m = .error .cmpError := by
  intro L
  induction L with
  | nil => intro m h _; exact absurd rfl h
  | cons x xs ih =>
    intro m _ hmem
    by_cases hx : x = F64.nan ∨ m = F64.nan
    · rw [minLoop, f64tryord_nan hx]
    · push_neg at hx
      obtain ⟨hx1, hx2⟩ := hx
      have hxs : F64.nan ∈ xs := by
        rcases hmem with h | h
        · exact absurd h hx2
        · rcases List.mem_cons.mp h with h | h
          · exact absurd h.symm hx1
          · exact h
      have hxs_ne : xs ≠ [] := List.ne_nil_of_mem hxs
      rw [minLoop]
      cases hord : f64tryord x m with
      | error e =>
        rcases f64tryord_error_nan hord with h | h
        · exact absurd h hx1
        · exact absurd h hx2
      | ok o =>
        cases o with
        | lt => exact ih x hxs_ne (Or.inr hxs)
        | gt => exact ih m hxs_ne (Or.inr hxs)
        | eq => exact ih m hxs_ne (Or.inr hxs)

theorem evalArgs_cons {ev : EvalFn} {a0 : Term} {rest : List Term}
    {vals : List (Answer F64)} (h : evalArgs ev (a0 :: rest) = .ok vals) :
    ∃ v vs, vals = v :: vs ∧ ev a0 = .ok v ∧ evalArgs ev rest = .ok vs := by
  rw [evalArgs] at h
  cases hva : ev a0 with
  | ok v =>
    rw [hva] at h
    cases hvs : evalArgs ev rest with
    | ok vs =>
      rw [hvs] at h
      simp [bind, EOut.bind, pure] at h
      exact ⟨v, vs, h.symm, rfl, rfl⟩
    | err e => rw [hvs] at h; exact absurd h (by simp [bind, EOut.bind])
    | panicked => rw [hvs] at h; exact absurd h (by simp [bind, EOut.bind])
    | fuelOut => rw [hvs] at h; exact absurd h (by simp [bind, EOut.bind])
  | err e => rw [hva] at h; exact absurd h (by simp [bind, EOut.bind])
  | panicked => rw [hva] at h; exact absurd h (by simp [bind, EOut.bind])
  | fuelOut => rw [hva] at h; exact absurd h (by simp [bind, EOut.bind])

/-- C5 (counterexample): `max` applied to a single argument whose value
is a single NaN performs no comparison at all and returns that NaN as the
answer — not `MathError::CmpError`. -/
theorem max_of_single_nan_returns_nan :
    evalFuel 5 (Term.function "max" [Term.num (.single F64.nan)]) Ctx.new
      = .ok (.single F64.nan) := by
  decide

/-- C5 (amended): the builtin `max` and `min` return `MathError::CmpError`
whenever some evaluated operand value is NaN, provided the evaluated
values (all answers flattened, assuming the `Multiple`-holds-at-least-two
invariant) number at least two — so that at least one `tryord` comparison
happens.  (With a single argument evaluating to a single NaN no comparison
happens and the NaN is returned unchanged.) -/
theorem max_min_nan_cmp_error :
    ∀ (ev : EvalFn) (args : List Term) (ctx : Ctx) (vals : List (Answer F64)),
      evalArgs ev args = .ok vals →
      (∀ a ∈ vals, a.wf = true) →
      F64.nan ∈ flattenAnswers vals →
      2 ≤ (flattenAnswers vals).length →
      maxEval ev args ctx = .err .cmpError ∧ minEval ev args ctx = .err .cmpError := by
  intro ev args ctx vals hargs hwf hnan hlen
  cases args with
  | nil =>
    rw [evalArgs] at hargs
    simp at hargs
    subst hargs
    simp [flattenAnswers] at hlen
  | cons a0 rest =>
    obtain ⟨v, vs, hvals, hva, hvs⟩ := evalArgs_cons hargs
    subst hvals
    have hflat : flattenAnswers (v :: vs) = v.toVec ++ flattenAnswers vs := rfl
    cases v with
    | single n =>
      have hstart : (match (Answer.single n : Answer F64) with
          | .single n => EOut.ok (n, ([] : List F64))
          | .multiple ns =>
            match ns.getLast? with
            | some one => EOut.ok (one, ns.dropLast)
            | none => EOut.panicked) = EOut.ok (n, ([] : List F64)) := rfl
      have hdrop : (flattenAnswers (Answer.single n :: vs)).drop 1 = flattenAnswers vs := by
        simp [hflat, Answer.toVec]
      have hL : (flattenAnswers (Answer.single n :: vs)).drop 1 ++ ([] : List F64)
          = flattenAnswers vs := by simp [hdrop]
      have hnonempty : flattenAnswers vs ≠ [] := by
        have : (flattenAnswers (Answer.single n :: vs)).length
            = (flattenAnswers vs).length + 1 := by simp [hflat, Answer.toVec]
        intro hemp
        rw [hemp] at this
        simp at this
        omega
      have hcases : n = F64.nan ∨ F64.nan ∈ flattenAnswers vs := by
        rw [hflat] at hnan
        rcases List.mem_append.mp hnan with h | h
        · simp [Answer.toVec] at h
          exact Or.inl h.symm
        · exact Or.inr h
      constructor
      · simp only [maxEval, hva, hargs, bind, EOut.bind, hstart]
        rw [hL, maxLoop_nan (flattenAnswers vs) n hnonempty hcases]
      · simp only [minEval, hva, hargs, bind, EOut.bind, hstart]
        rw [hL, minLoop_nan (flattenAnswers vs) n hnonempty hcases]
    | multiple ns =>
      have hns_wf : (2 : ℕ) ≤ ns.length := by
        have := hwf (Answer.multiple ns) (List.mem_cons_self _ _)
        simpa [Answer.wf] using this
      have hns_ne : ns ≠ [] := by
        intro hemp
        rw [hemp] at hns_wf
        simp at hns_wf
      have hlast : ns.getLast? = some (ns.getLast hns_ne) := List.getLast?_eq_getLast ns hns_ne
      set m := ns.getLast hns_ne with hm
      obtain ⟨n0, ns', hns⟩ : ∃ n0 ns', ns = n0 :: ns' := by
        cases ns with
        | nil => exact absurd rfl hns_ne
        | cons n0 ns' => exact ⟨n0, ns', rfl⟩
      have hdrop : (flattenAnswers (Answer.multiple ns :: vs)).drop 1
          = ns' ++ flattenAnswers vs := by
        rw [hns]
        rfl
      have hsplit : ns.dropLast ++ [m] = ns := List.dropLast_append_getLast hns_ne
      have hcases : m = F64.nan ∨
          F64.nan ∈ (flattenAnswers (Answer.multiple ns :: vs)).drop 1 ++ ns.dropLast := by
        rw [hflat] at hnan
        rcases List.mem_append.mp hnan with h | h
        · simp only [Answer.toVec] at h
          rw [← hsplit] at h
          rcases List.mem_append.mp h with h2 | h2
          · right
            exact List.mem_append.mpr (Or.inr h2)
          · left
            have h3 : F64.nan = m := by simpa using h2
            exact h3.symm
        · right
          refine List.mem_append.mpr (Or.inl ?_)
          rw [hdrop]
          exact List.mem_append.mpr (Or.inr h)
      have hnonempty : (flattenAnswers (Answer.multiple ns :: vs)).drop 1 ++ ns.dropLast
          ≠ [] := by
        rw [hdrop]
        intro hemp
        have := congrArg List.length hemp
        simp at this
        obtain ⟨h1, _⟩ := this
        subst h1
        rw [hns] at hns_wf
        simp at hns_wf
      constructor
      · simp only [maxEval, hva, hargs, bind, EOut.bind, hlast]
        rw [maxLoop_nan _ m hnonempty hcases]
      · simp only [minEval, hva, hargs, bind, EOut.bind, hlast]
        rw [minLoop_nan _ m hnonempty hcases]

/-- Witness for `max_min_nan_cmp_error`: `max(NaN, 0)` and `min(NaN, 0)`
(operands given as literal answers) fail with `CmpError`. -/
theorem max_min_nan_cmp_error_witness :
    maxEval (fun t => evalFuel 5 t Ctx.empty)
        [Term.num (.single F64.nan), Term.num (.single (.finite 0))] Ctx.empty
      = .err .cmpError
    ∧ minEval (fun t => evalFuel 5 t Ctx.empty)
        [Term.num (.single F64.nan), Term.num (.single (.finite 0))] Ctx.empty
      = .err .cmpError :=
  max_min_nan_cmp_error (fun t => evalFuel 5 t Ctx.empty)
    [Term.num (.single F64.nan), Term.num (.single (.finite 0))] Ctx.empty
    [.single F64.nan, .single (.finite 0)]
    (by rfl) (by decide) (by decide) (by decide)

end Mexprp
